import Mathlib

/-!
Verification of the BindnSeq kmer-scoring pipeline
(`rnaseqlib/bindnseq/BindnSeq.py`).

The numeric pipeline is embedded shallowly: machine floats become exact
rationals, numpy arrays become lists, fallible numpy indexing becomes
`Option`.  Each definition mirrors one function (or one inlined block)
of the source; spec-side definitions, used only to compare against the
code, carry a `spec` prefix in their name.
-/

namespace BindnSeq

/-- Fold change filter for BNS analyses (`FC_FILTER = 2.0`). -/
def FC_FILTER : ℚ := 2

/-- Source function `rescale_score(OldValue, OldMin, OldMax, NewMin, NewMax)`:
linear rescale of `OldValue` from `[OldMin, OldMax]` to `[NewMin, NewMax]`. -/
def rescale_score (OldValue OldMin OldMax NewMin NewMax : ℚ) : ℚ :=
  ((OldValue - OldMin) * (NewMax - NewMin)) / (OldMax - OldMin) + NewMin

/-- Python `int()` truncation toward zero on an exact rational. -/
def pyInt (q : ℚ) : ℤ :=
  if 0 ≤ q then Int.floor q else Int.ceil q

/-- The BED score of a kmer: `int(min(rescale_score(fc, 1, 4, 1, 1000), 1000))`
with the fold-change ceiling `fc_ceiling = 4` (source lines 450-455). -/
def kmer_score (fc : ℚ) : ℤ :=
  pyInt (min (rescale_score fc 1 4 1 1000) 1000)

/-- The kmer display color: `int(min(rescale_score(fc, 1, 4, 1, 255), 255))`
(source lines 457-461). -/
def kmer_color (fc : ℚ) : ℤ :=
  pyInt (min (rescale_score fc 1 4 1 255) 255)

/-- One output line of the BED-Detail file (8 fields, source lines 472-479). -/
structure BedEntry where
  chrom : String
  chromStart : ℤ
  chromEnd : ℤ
  name : String
  score : ℤ
  strand : String
  thickStart : ℤ
  thickEnd : ℤ
  deriving DecidableEq, Repr

/-- The BED entries emitted for one kmer in one sequence
(`output_enriched_kmers_as_bed`, inner loop, source lines 424-485):
for each 0-based occurrence offset the start is mapped to 1-based, and on
the minus strand the genomic end is computed from the region end; on any
other strand the loop `continue`s before emitting anything. -/
def bedEntriesForKmer (seq_chrom : String) (seq_start seq_end : ℤ)
    (seq_strand : String) (kmer_seq : String) (fc : ℚ)
    (kmer_starts : List ℕ) : List BedEntry :=
  if seq_strand = "-" then
    kmer_starts.map (fun (ks : ℕ) =>
      let kmer_start : ℤ := (ks : ℤ) + 1
      let kmer_end_in_seq : ℤ := seq_end - kmer_start + 1
      let kmer_start_in_seq : ℤ := kmer_end_in_seq - (kmer_seq.length : ℤ)
      { chrom := seq_chrom
        chromStart := kmer_start_in_seq
        chromEnd := kmer_end_in_seq
        name := kmer_seq
        score := kmer_score fc
        strand := seq_strand
        thickStart := kmer_start_in_seq
        thickEnd := kmer_end_in_seq })
  else []

/-- Indices of `fc_rank` whose value is below `FC_FILTER`
(`np.where(fc_rank < FC_FILTER)[0]`, source line 518). -/
def counts_not_met_inds (fc_rank : List ℚ) : List ℕ :=
  (List.range fc_rank.length).filter (fun i => decide (fc_rank.getD i 0 < FC_FILTER))

/-- Indices of `counts` holding a value `>= 1`
(`np.where(obs_counts >= 1)[0]`, source line 535). -/
def nonzeroIndices (counts : List ℤ) : List ℕ :=
  (List.range counts.length).filter (fun i => decide (1 ≤ counts.getD i 0))

/-- Numpy fancy-index assignment `obs_counts[inds] = 0` (source line 524):
the entries of `l` at positions in `inds` become zero. -/
def zeroAtIndices (l : List ℤ) (inds : List ℕ) : List ℤ :=
  (List.range l.length).map (fun i => if i ∈ inds then 0 else l.getD i 0)

/-- Python `max(...)` over a list of values, with a default for the empty
case (the source guards the empty case separately, lines 536-540). -/
def maxOr (dflt : ℚ) : List ℚ → ℚ
  | [] => dflt
  | v :: vs => vs.foldl max v

/-- One iteration of the row loop of `add_rank_weighted_densities`
(source lines 510-547), producing the pair
`(weighted_density, max_kmer_fc)` for one region.  Out-of-range numpy
indexing (either in the fancy assignment on `obs_counts` or in the
`fc_rank[nonzero_kmer_inds]` lookup) raises in Python; it is `none` here. -/
def add_rank_weighted_density_row (fc_rank : List ℚ) (kmer_len : ℕ)
    (min_density_val : ℚ) (min_seq_len : ℤ)
    (obs_counts : List ℤ) (seq_len : ℤ) : Option (ℚ × ℚ) :=
  if ∀ i ∈ counts_not_met_inds fc_rank, i < obs_counts.length then
    let obs2 := zeroAtIndices obs_counts (counts_not_met_inds fc_rank)
    let len_denom : ℚ := ((seq_len : ℚ) - (kmer_len : ℚ) + 1) / 1000
    let weighted_density :=
      max (obs2.map (fun (c : ℤ) => (c : ℚ) / len_denom)).sum min_density_val
    if ∀ i ∈ nonzeroIndices obs2, i < fc_rank.length then
      let max_kmer_fc :=
        maxOr min_density_val ((nonzeroIndices obs2).map (fun i => fc_rank.getD i 0))
      if seq_len < min_seq_len then some (min_density_val, min_density_val)
      else some (weighted_density, max_kmer_fc)
    else none
  else none

/-- Function `add_rank_weighted_densities` over the whole table (source lines
496-551) with the default `min_density_val = 2**(-8)` and
`min_seq_len = 15`: each row is a pair (observed-count vector, seq_len).
An exception in any row aborts the pass with no output (`none`). -/
def add_rank_weighted_densities (fc_rank : List ℚ) (kmer_len : ℕ)
    (rows : List (List ℤ × ℤ)) : Option (List (ℚ × ℚ)) :=
  rows.mapM (fun r =>
    add_rank_weighted_density_row fc_rank kmer_len ((2 : ℚ) ^ (-8 : ℤ)) 15 r.1 r.2)

/-- Modelled from the spec's suppression rule, for comparison with the
code: the observed counts with every kmer whose enrichment score is below
the fold-change filter threshold forced to zero. -/
def specFilteredCounts (fc_rank : List ℚ) (obs : List ℤ) : List ℤ :=
  List.zipWith (fun fc c => if fc < FC_FILTER then 0 else c) fc_rank obs

/-- Modelled from the spec's max-fold-change sentence, for comparison with
the code: the maximum enrichment score among kmers whose count in `counts`
is at least one, and the floor value when there is none. -/
def specMaxOccurringFc (fc_rank : List ℚ) (counts : List ℤ) (floor_val : ℚ) : ℚ :=
  maxOr floor_val
    (((List.range fc_rank.length).filter
        (fun i => decide (1 ≤ counts.getD i 0))).map (fun i => fc_rank.getD i 0))

/-- Ascending sort of the rank-score column, as performed internally by
`np.percentile` (source line 213). -/
def sortAsc (l : List ℚ) : List ℚ :=
  List.insertionSort (fun a b => a ≤ b) l

/-- Descending sort of the rank-score column, the order pandas `rank`
uses with `ascending=False` (source lines 149-151). -/
def sortDescQ (l : List ℚ) : List ℚ :=
  List.insertionSort (fun a b => b ≤ a) l

/-- Linear interpolation between order statistics at fractional position
`t`: the value `s[floor t] + (t - floor t) * (s[floor t + 1] - s[floor t])`
used by `np.percentile`. -/
def interpAt (s : List ℚ) (t : ℚ) : ℚ :=
  s.getD (Int.floor t).toNat 0 +
    (t - (Int.floor t : ℤ)) *
      (s.getD ((Int.floor t).toNat + 1) 0 - s.getD (Int.floor t).toNat 0)

/-- Function `get_fc_cutoff` (source lines 208-214):
`np.percentile(or_df["rank"], percentile_cutoff)` with numpy's default
linear interpolation between order statistics. -/
def get_fc_cutoff (scores : List ℚ) (percentile_cutoff : ℚ) : ℚ :=
  interpAt (sortAsc scores) (percentile_cutoff / 100 * ((scores.length : ℚ) - 1))

/-- The enriched-kmer selection of `get_enriched_kmers_df` (source lines
217-227): keep the records whose rank score is at least the percentile
cutoff. -/
def get_enriched_kmers (scores : List ℚ) (percentile_cutoff : ℚ) : List ℚ :=
  scores.filter (fun s => decide (get_fc_cutoff scores percentile_cutoff ≤ s))

/-- The ordinal rank pandas assigns to value `v` of the rank column with
`rank(ascending=False, method="min")` (source lines 148-151): one plus the
position of the first entry `<= v` in the descending sort, i.e. the
minimum 1-based position of the tied group of `v`. -/
def ordinal_rank_of (scores : List ℚ) (v : ℚ) : ℕ :=
  (sortDescQ scores).findIdx (fun t => decide (t ≤ v)) + 1

/-- The `ordinal_rank` column: the ordinal rank of each record of the
rank-score column (source lines 148-151). -/
def ordinal_ranks (scores : List ℚ) : List ℕ :=
  scores.map (fun v => ordinal_rank_of scores v)

lemma pyInt_mono {q r : ℚ} (h : q ≤ r) : pyInt q ≤ pyInt r := by
  unfold pyInt
  by_cases hq : 0 ≤ q
  · rw [if_pos hq, if_pos (le_trans hq h)]
    exact Int.floor_le_floor h
  · rw [if_neg hq]
    by_cases hr : 0 ≤ r
    · rw [if_pos hr]
      calc Int.ceil q ≤ Int.ceil (0 : ℚ) := Int.ceil_le_ceil (le_of_not_le hq)
        _ = Int.floor (0 : ℚ) := by simp
        _ ≤ Int.floor r := Int.floor_le_floor hr
    · rw [if_neg hr]
      exact Int.ceil_le_ceil h

lemma pyInt_min (q c : ℚ) : pyInt (min q c) = min (pyInt q) (pyInt c) := by
  rcases le_total q c with h | h
  · rw [min_eq_left h, min_eq_left (pyInt_mono h)]
  · rw [min_eq_right h, min_eq_right (pyInt_mono h)]

/-- C9: the BED score field is `min(int(((fc - 1) * 999 / 3) + 1), 1000)`
(linear rescale of the fold change from `[1, 4]` to `[1, 1000]`, clamped at
1000 and truncated), the color is the analogous rescale to `[1, 255]`
clamped at 255, and fold change 4 yields score 1000 and color 255. -/
theorem bed_score_is_clamped_rescale :
    (∀ fc : ℚ, kmer_score fc = min (pyInt ((fc - 1) * 999 / 3 + 1)) 1000 ∧
      kmer_color fc = min (pyInt ((fc - 1) * 254 / 3 + 1)) 255) ∧
    (∀ (c : String) (s e : ℤ) (km : String) (fc : ℚ) (starts : List ℕ),
      (bedEntriesForKmer c s e "-" km fc starts).map BedEntry.score
        = starts.map (fun _o => min (pyInt ((fc - 1) * 999 / 3 + 1)) 1000)) ∧
    kmer_score 4 = 1000 ∧ kmer_color 4 = 255 := by
  have hscore : ∀ fc : ℚ, kmer_score fc = min (pyInt ((fc - 1) * 999 / 3 + 1)) 1000 := by
    intro fc
    have h1 : rescale_score fc 1 4 1 1000 = (fc - 1) * 999 / 3 + 1 := by
      unfold rescale_score; norm_num
    have h2 : pyInt 1000 = 1000 := by unfold pyInt; norm_num
    rw [kmer_score, h1, show (1000 : ℚ) = (1000 : ℚ) from rfl, ← h2, pyInt_min, h2]
  have hcolor : ∀ fc : ℚ, kmer_color fc = min (pyInt ((fc - 1) * 254 / 3 + 1)) 255 := by
    intro fc
    have h1 : rescale_score fc 1 4 1 255 = (fc - 1) * 254 / 3 + 1 := by
      unfold rescale_score; norm_num
    have h2 : pyInt 255 = 255 := by unfold pyInt; norm_num
    rw [kmer_color, h1, ← h2, pyInt_min, h2]
  refine ⟨fun fc => ⟨hscore fc, hcolor fc⟩, ?_, ?_, ?_⟩
  · intro c s e km fc starts
    rw [bedEntriesForKmer, if_pos rfl, List.map_map]
    exact List.map_congr_left (fun o _ => hscore fc)
  · norm_num [kmer_score, pyInt, rescale_score]
  · norm_num [kmer_color, pyInt, rescale_score]

/-- C7: on the minus strand each occurrence at 0-based offset `o` is emitted
with `chromEnd = region_end - (o + 1) + 1`, `chromStart = chromEnd - k`,
`thickStart = chromStart` and `thickEnd = chromEnd`; in particular region
`chrom1:100-200:-` with `k = 4` and offset 5 yields the interval
`chrom1 191 195` with `thickStart 191` and `thickEnd 195`. -/
theorem minus_strand_projection :
    (∀ (c : String) (s e : ℤ) (km : String) (fc : ℚ) (starts : List ℕ),
      bedEntriesForKmer c s e "-" km fc starts = starts.map (fun o =>
        { chrom := c
          chromStart := (e - ((o : ℤ) + 1) + 1) - (km.length : ℤ)
          chromEnd := e - ((o : ℤ) + 1) + 1
          name := km
          score := kmer_score fc
          strand := "-"
          thickStart := (e - ((o : ℤ) + 1) + 1) - (km.length : ℤ)
          thickEnd := e - ((o : ℤ) + 1) + 1 })) ∧
    bedEntriesForKmer "chrom1" 100 200 "-" "AAAA" 4 [5] =
      [{ chrom := "chrom1", chromStart := 191, chromEnd := 195, name := "AAAA",
         score := 1000, strand := "-", thickStart := 191, thickEnd := 195 }] := by
  constructor
  · intro c s e km fc starts
    rw [bedEntriesForKmer, if_pos rfl]
  · have h4 : kmer_score 4 = 1000 := by norm_num [kmer_score, pyInt, rescale_score]
    have hl : ("AAAA".length : ℤ) = 4 := by decide
    rw [bedEntriesForKmer, if_pos rfl]
    simp only [List.map_cons, List.map_nil, h4, hl]
    norm_num

lemma row_eq (fc_rank : List ℚ) (kmer_len : ℕ) (min_density_val : ℚ)
    (min_seq_len : ℤ) (obs_counts : List ℤ) (seq_len : ℤ) :
    add_rank_weighted_density_row fc_rank kmer_len min_density_val min_seq_len
        obs_counts seq_len =
      if ∀ i ∈ counts_not_met_inds fc_rank, i < obs_counts.length then
        if ∀ i ∈ nonzeroIndices (zeroAtIndices obs_counts (counts_not_met_inds fc_rank)),
            i < fc_rank.length then
          if seq_len < min_seq_len then some (min_density_val, min_density_val)
          else some
            (max ((zeroAtIndices obs_counts (counts_not_met_inds fc_rank)).map
                (fun (c : ℤ) => (c : ℚ) / (((seq_len : ℚ) - (kmer_len : ℚ) + 1) / 1000))).sum
              min_density_val,
             maxOr min_density_val
               ((nonzeroIndices (zeroAtIndices obs_counts (counts_not_met_inds fc_rank))).map
                 (fun i => fc_rank.getD i 0)))
        else none
      else none := rfl

lemma mem_counts_not_met_iff (fc_rank : List ℚ) (j : ℕ) :
    j ∈ counts_not_met_inds fc_rank ↔ j < fc_rank.length ∧ fc_rank.getD j 0 < FC_FILTER := by
  simp [counts_not_met_inds, List.mem_filter, List.mem_range]

lemma mem_nonzeroIndices_iff (l : List ℤ) (j : ℕ) :
    j ∈ nonzeroIndices l ↔ j < l.length ∧ 1 ≤ l.getD j 0 := by
  simp [nonzeroIndices, List.mem_filter, List.mem_range]

lemma length_zeroAtIndices (l : List ℤ) (inds : List ℕ) :
    (zeroAtIndices l inds).length = l.length := by
  simp [zeroAtIndices]

lemma getD_zeroAtIndices (l : List ℤ) (inds : List ℕ) (j : ℕ) (hj : j < l.length) :
    (zeroAtIndices l inds).getD j 0 = if j ∈ inds then 0 else l.getD j 0 := by
  have hj2 : j < (zeroAtIndices l inds).length := by rw [length_zeroAtIndices]; exact hj
  rw [List.getD_eq_getElem _ _ hj2]
  unfold zeroAtIndices
  rw [List.getElem_map, List.getElem_range]

lemma zeroAt_eq_specFilteredCounts (fc_rank : List ℚ) (obs : List ℤ)
    (hlen : obs.length = fc_rank.length) :
    zeroAtIndices obs (counts_not_met_inds fc_rank) = specFilteredCounts fc_rank obs := by
  apply List.ext_getElem
  · simp [length_zeroAtIndices, specFilteredCounts, hlen]
  · intro j h1 h2
    have hjo : j < obs.length := by
      have := h1; rwa [length_zeroAtIndices] at this
    have hjf : j < fc_rank.length := hlen ▸ hjo
    rw [← List.getD_eq_getElem _ (0 : ℤ) h1, ← List.getD_eq_getElem _ (0 : ℤ) h2,
      getD_zeroAtIndices _ _ _ hjo]
    have hspec : (specFilteredCounts fc_rank obs).getD j 0 =
        if fc_rank.getD j 0 < FC_FILTER then 0 else obs.getD j 0 := by
      have h3 : j < (specFilteredCounts fc_rank obs).length := h2
      rw [List.getD_eq_getElem _ _ h3]
      unfold specFilteredCounts
      rw [List.getElem_zipWith]
      rw [List.getD_eq_getElem _ _ hjf, List.getD_eq_getElem _ _ hjo]
    rw [hspec]
    by_cases hc : fc_rank.getD j 0 < FC_FILTER
    · rw [if_pos ((mem_counts_not_met_iff fc_rank j).mpr ⟨hjf, hc⟩), if_pos hc]
    · rw [if_neg (fun hmem => hc ((mem_counts_not_met_iff fc_rank j).mp hmem).2),
        if_neg hc]

lemma sum_map_div (l : List ℤ) (d : ℚ) :
    (l.map (fun (c : ℤ) => (c : ℚ) / d)).sum = ((l.sum : ℤ) : ℚ) / d := by
  induction l with
  | nil => simp
  | cons a t ih => simp [ih, add_div]

lemma le_foldl_max (c v : ℚ) (l : List ℚ) (hv : c ≤ v) (h : ∀ x ∈ l, c ≤ x) :
    c ≤ l.foldl max v := by
  induction l generalizing v with
  | nil => exact hv
  | cons a t ih =>
    exact ih (max v a) (le_trans hv (le_max_left v a))
      (fun x hx => h x (List.mem_cons_of_mem a hx))

lemma le_maxOr (c d : ℚ) (l : List ℚ) (hne : l ≠ []) (h : ∀ x ∈ l, c ≤ x) :
    c ≤ maxOr d l := by
  cases l with
  | nil => exact absurd rfl hne
  | cons v vs =>
    exact le_foldl_max c v vs (h v (List.mem_cons_self v vs))
      (fun x hx => h x (List.mem_cons_of_mem v hx))

lemma mapM_eq_none_of_mem {α β : Type} (f : α → Option β) (rows : List α) (r : α)
    (hr : r ∈ rows) (hf : f r = none) : rows.mapM f = none := by
  induction rows with
  | nil => exact absurd hr (List.not_mem_nil r)
  | cons a t ih =>
    rw [List.mapM_cons]
    rcases List.mem_cons.mp hr with h | h
    · subst h; rw [hf]; rfl
    · cases hfa : f a with
      | none => rfl
      | some b => rw [ih h]; rfl

/-- C2: for a region of sequence length at least 15 (counts aligned with
the enriched kmer set), the weighted density is
`max(sum(filtered counts) / ((seq_len - k + 1) / 1000), 2^(-8))` where the
filtered counts zero every kmer whose enrichment score is below the
fold-change filter threshold 2.0. -/
theorem weighted_density_is_filtered_sum_over_kb (fc_rank : List ℚ) (kmer_len : ℕ)
    (obs : List ℤ) (slen : ℤ) (p : ℚ × ℚ)
    (hlen : obs.length = fc_rank.length) (h15 : 15 ≤ slen)
    (hsome : add_rank_weighted_density_row fc_rank kmer_len ((2 : ℚ) ^ (-8 : ℤ)) 15
        obs slen = some p) :
    p.1 = max (((specFilteredCounts fc_rank obs).sum : ℚ) /
        (((slen : ℚ) - (kmer_len : ℚ) + 1) / 1000)) ((2 : ℚ) ^ (-8 : ℤ)) := by
  have h1 : ∀ i ∈ counts_not_met_inds fc_rank, i < obs.length := by
    intro i hi
    rw [hlen]
    exact ((mem_counts_not_met_iff fc_rank i).mp hi).1
  have h2 : ∀ i ∈ nonzeroIndices (zeroAtIndices obs (counts_not_met_inds fc_rank)),
      i < fc_rank.length := by
    intro i hi
    have := ((mem_nonzeroIndices_iff _ i).mp hi).1
    rwa [length_zeroAtIndices, hlen] at this
  rw [row_eq, if_pos h1, if_pos h2, if_neg (not_lt.mpr h15)] at hsome
  cases Option.some.inj hsome
  simp only
  rw [zeroAt_eq_specFilteredCounts fc_rank obs hlen, sum_map_div]

/-- Witness for C2 at `fc_rank = [3]`, `obs = [2]`, `k = 4`, `seq_len = 20`. -/
theorem weighted_density_is_filtered_sum_over_kb_witness :
    (((2000 : ℚ) / 17, (3 : ℚ)) : ℚ × ℚ).1 =
      max (((specFilteredCounts [3] [2]).sum : ℚ) /
        ((((20 : ℤ) : ℚ) - ((4 : ℕ) : ℚ) + 1) / 1000)) ((2 : ℚ) ^ (-8 : ℤ)) :=
  weighted_density_is_filtered_sum_over_kb [3] 4 [2] 20 (2000 / 17, 3) rfl
    (by norm_num)
    (by norm_num [add_rank_weighted_density_row, counts_not_met_inds, nonzeroIndices,
      zeroAtIndices, maxOr, FC_FILTER, List.range_succ, List.filter])

/-- C4: every region processed by the density-weighting step (any
sequence length, any count vector) gets a `log2_weighted_density` of at
least `log2(2^(-8)) = -8`. -/
theorem log2_weighted_density_at_least_neg_eight (fc_rank : List ℚ) (kmer_len : ℕ)
    (obs : List ℤ) (slen : ℤ) (p : ℚ × ℚ)
    (hsome : add_rank_weighted_density_row fc_rank kmer_len ((2 : ℚ) ^ (-8 : ℤ)) 15
        obs slen = some p) :
    (-8 : ℝ) ≤ Real.logb 2 ((p.1 : ℚ) : ℝ) := by
  have hfloor : (2 : ℚ) ^ (-8 : ℤ) ≤ p.1 := by
    rw [row_eq] at hsome
    split at hsome
    · split at hsome
      · split at hsome
        · cases Option.some.inj hsome; exact le_refl _
        · cases Option.some.inj hsome; exact le_max_right _ _
      · simp at hsome
    · simp at hsome
  have hcast : (((2 : ℚ) ^ (-8 : ℤ) : ℚ) : ℝ) = (2 : ℝ) ^ (-8 : ℤ) := by
    push_cast
    ring
  have hpos : (0 : ℝ) < (((2 : ℚ) ^ (-8 : ℤ) : ℚ) : ℝ) := by
    rw [hcast]
    positivity
  have hle : (((2 : ℚ) ^ (-8 : ℤ) : ℚ) : ℝ) ≤ ((p.1 : ℚ) : ℝ) := by exact_mod_cast hfloor
  have hlogb : Real.logb 2 (((2 : ℚ) ^ (-8 : ℤ) : ℚ) : ℝ) = -8 := by
    rw [hcast,
      show ((2 : ℝ) ^ (-8 : ℤ)) = (2 : ℝ) ^ ((-8 : ℤ) : ℝ) from
        (Real.rpow_intCast 2 (-8)).symm,
      Real.logb_rpow (by norm_num) (by norm_num)]
    norm_num
  calc (-8 : ℝ) = Real.logb 2 (((2 : ℚ) ^ (-8 : ℤ) : ℚ) : ℝ) := hlogb.symm
    _ ≤ Real.logb 2 ((p.1 : ℚ) : ℝ) := Real.logb_le_logb_of_le (by norm_num) hpos hle

/-- Witness for C4 at `fc_rank = [3]`, `obs = [2]`, `k = 4`, `seq_len = 20`. -/
theorem log2_weighted_density_at_least_neg_eight_witness :
    (-8 : ℝ) ≤ Real.logb 2 (((((2000 : ℚ) / 17, (3 : ℚ)) : ℚ × ℚ).1 : ℝ)) :=
  log2_weighted_density_at_least_neg_eight [3] 4 [2] 20 (2000 / 17, 3)
    (by norm_num [add_rank_weighted_density_row, counts_not_met_inds, nonzeroIndices,
      zeroAtIndices, maxOr, FC_FILTER, List.range_succ, List.filter])

/-- C10: the reported `max_kmer_fc` is either exactly the floor `2^(-8)`
or at least the fold-change filter threshold `2.0`; a value strictly
between the two is never reported. -/
theorem max_kmer_fc_floor_or_above_filter (fc_rank : List ℚ) (kmer_len : ℕ)
    (obs : List ℤ) (slen : ℤ) (p : ℚ × ℚ)
    (hsome : add_rank_weighted_density_row fc_rank kmer_len ((2 : ℚ) ^ (-8 : ℤ)) 15
        obs slen = some p) :
    p.2 = (2 : ℚ) ^ (-8 : ℤ) ∨ FC_FILTER ≤ p.2 := by
  rw [row_eq] at hsome
  split at hsome
  case isFalse => simp at hsome
  case isTrue h1 =>
  split at hsome
  case isFalse => simp at hsome
  case isTrue h2 =>
  split at hsome
  case isTrue hshort => cases Option.some.inj hsome; exact Or.inl rfl
  case isFalse hshort =>
  cases Option.some.inj hsome
  have hall : ∀ x ∈ (nonzeroIndices (zeroAtIndices obs (counts_not_met_inds fc_rank))).map
      (fun i => fc_rank.getD i 0), FC_FILTER ≤ x := by
    intro x hx
    obtain ⟨i, hi, rfl⟩ := List.mem_map.mp hx
    obtain ⟨hilen, hival⟩ := (mem_nonzeroIndices_iff _ i).mp hi
    rw [length_zeroAtIndices] at hilen
    have hnotmem : i ∉ counts_not_met_inds fc_rank := by
      intro hmem
      rw [getD_zeroAtIndices _ _ _ hilen, if_pos hmem] at hival
      exact absurd hival (by norm_num)
    have hif : i < fc_rank.length := h2 i hi
    by_contra hlt
    exact hnotmem ((mem_counts_not_met_iff fc_rank i).mpr ⟨hif, lt_of_not_le hlt⟩)
  cases hnz : (nonzeroIndices (zeroAtIndices obs (counts_not_met_inds fc_rank))).map
      (fun i => fc_rank.getD i 0) with
  | nil => exact Or.inl rfl
  | cons v vs =>
    exact Or.inr (le_maxOr FC_FILTER _ _ (List.cons_ne_nil v vs) (hnz ▸ hall))

/-- Witness for C10 at `fc_rank = [3]`, `obs = [2]`, `k = 4`, `seq_len = 20`. -/
theorem max_kmer_fc_floor_or_above_filter_witness :
    (((2000 : ℚ) / 17, (3 : ℚ)) : ℚ × ℚ).2 = (2 : ℚ) ^ (-8 : ℤ) ∨
      FC_FILTER ≤ (((2000 : ℚ) / 17, (3 : ℚ)) : ℚ × ℚ).2 :=
  max_kmer_fc_floor_or_above_filter [3] 4 [2] 20 (2000 / 17, 3)
    (by norm_num [add_rank_weighted_density_row, counts_not_met_inds, nonzeroIndices,
      zeroAtIndices, maxOr, FC_FILTER, List.range_succ, List.filter])

/-- Counterexample for C1: a single enriched kmer with enrichment score
1.5 occurs once (raw count 1) in a region of length 20, so by the claim
the max fold change should be 1.5; the code reports the floor `2^(-8)`
because the occurrence scan runs on the already-suppressed counts. -/
theorem max_fold_change_raw_counterexample :
    add_rank_weighted_density_row [3 / 2] 4 ((2 : ℚ) ^ (-8 : ℤ)) 15 [1] 20
        = some ((2 : ℚ) ^ (-8 : ℤ), (2 : ℚ) ^ (-8 : ℤ)) ∧
      specMaxOccurringFc [3 / 2] [1] ((2 : ℚ) ^ (-8 : ℤ)) = 3 / 2 ∧
      ((2 : ℚ) ^ (-8 : ℤ)) ≠ 3 / 2 := by
  refine ⟨?_, ?_, by norm_num⟩
  · norm_num [add_rank_weighted_density_row, counts_not_met_inds, nonzeroIndices,
      zeroAtIndices, maxOr, FC_FILTER, List.range_succ, List.filter]
  · norm_num [specMaxOccurringFc, maxOr, List.range_succ, List.filter]

/-- C1 as amended: for regions of sequence length at least 15 (counts
aligned with the enriched kmer set), the reported max fold change is the
maximum enrichment score over the kmers with at least one
post-suppression occurrence in the observed-count vector, and the floor
`2^(-8)` when there is none. -/
theorem max_fold_change_post_suppression (fc_rank : List ℚ) (kmer_len : ℕ)
    (obs : List ℤ) (slen : ℤ) (p : ℚ × ℚ)
    (hlen : obs.length = fc_rank.length) (h15 : 15 ≤ slen)
    (hsome : add_rank_weighted_density_row fc_rank kmer_len ((2 : ℚ) ^ (-8 : ℤ)) 15
        obs slen = some p) :
    p.2 = specMaxOccurringFc fc_rank (specFilteredCounts fc_rank obs)
        ((2 : ℚ) ^ (-8 : ℤ)) := by
  have h1 : ∀ i ∈ counts_not_met_inds fc_rank, i < obs.length := by
    intro i hi
    rw [hlen]
    exact ((mem_counts_not_met_iff fc_rank i).mp hi).1
  have h2 : ∀ i ∈ nonzeroIndices (zeroAtIndices obs (counts_not_met_inds fc_rank)),
      i < fc_rank.length := by
    intro i hi
    have := ((mem_nonzeroIndices_iff _ i).mp hi).1
    rwa [length_zeroAtIndices, hlen] at this
  rw [row_eq, if_pos h1, if_pos h2, if_neg (not_lt.mpr h15)] at hsome
  cases Option.some.inj hsome
  have hflen : (specFilteredCounts fc_rank obs).length = fc_rank.length := by
    simp [specFilteredCounts, hlen]
  rw [show (((max ((zeroAtIndices obs (counts_not_met_inds fc_rank)).map
        (fun (c : ℤ) => (c : ℚ) / (((slen : ℚ) - (kmer_len : ℚ) + 1) / 1000))).sum
        ((2 : ℚ) ^ (-8 : ℤ)),
      maxOr ((2 : ℚ) ^ (-8 : ℤ))
        ((nonzeroIndices (zeroAtIndices obs (counts_not_met_inds fc_rank))).map
          (fun i => fc_rank.getD i 0))) : ℚ × ℚ)).2 =
      maxOr ((2 : ℚ) ^ (-8 : ℤ))
        ((nonzeroIndices (zeroAtIndices obs (counts_not_met_inds fc_rank))).map
          (fun i => fc_rank.getD i 0)) from rfl,
    zeroAt_eq_specFilteredCounts fc_rank obs hlen]
  unfold specMaxOccurringFc nonzeroIndices
  rw [hflen]

/-- Witness for the amended C1 at `fc_rank = [3]`, `obs = [2]`, `k = 4`,
`seq_len = 20`. -/
theorem max_fold_change_post_suppression_witness :
    (((2000 : ℚ) / 17, (3 : ℚ)) : ℚ × ℚ).2 =
      specMaxOccurringFc [3] (specFilteredCounts [3] [2]) ((2 : ℚ) ^ (-8 : ℤ)) :=
  max_fold_change_post_suppression [3] 4 [2] 20 (2000 / 17, 3) rfl (by norm_num)
    (by norm_num [add_rank_weighted_density_row, counts_not_met_inds, nonzeroIndices,
      zeroAtIndices, maxOr, FC_FILTER, List.range_succ, List.filter])

/-- Counterexample for C8: a region whose observed-count vector (length 1)
disagrees with the enriched kmer set (size 2) completes without any
error, because both enrichment scores pass the filter so no fancy index
ever leaves the shorter vector. -/
theorem count_vector_mismatch_counterexample :
    (add_rank_weighted_density_row [3, 5 / 2] 4 ((2 : ℚ) ^ (-8 : ℤ)) 15 [5] 20).isSome
        = true ∧
      ([5] : List ℤ).length ≠ ([3, 5 / 2] : List ℚ).length := by
  constructor
  · norm_num [add_rank_weighted_density_row, counts_not_met_inds, nonzeroIndices,
      zeroAtIndices, maxOr, FC_FILTER, List.range_succ, List.filter]
  · norm_num

/-- C8 as amended: the density-weighting step never fails when the counts
vector length matches the enriched kmer set size (a mismatch fails only
when it makes a numpy index go out of range, which need not happen), and
when any region's row fails, the scoring pass produces no output at
all. -/
theorem density_failure_only_on_out_of_range :
    (∀ (fc_rank : List ℚ) (kmer_len : ℕ) (mdv : ℚ) (msl : ℤ) (obs : List ℤ) (slen : ℤ),
        obs.length = fc_rank.length →
        (add_rank_weighted_density_row fc_rank kmer_len mdv msl obs slen).isSome = true) ∧
    (∀ (fc_rank : List ℚ) (kmer_len : ℕ) (rows : List (List ℤ × ℤ)) (r : List ℤ × ℤ),
        r ∈ rows →
        add_rank_weighted_density_row fc_rank kmer_len ((2 : ℚ) ^ (-8 : ℤ)) 15 r.1 r.2
          = none →
        add_rank_weighted_densities fc_rank kmer_len rows = none) := by
  constructor
  · intro fc_rank kmer_len mdv msl obs slen hlen
    have h1 : ∀ i ∈ counts_not_met_inds fc_rank, i < obs.length := by
      intro i hi
      rw [hlen]
      exact ((mem_counts_not_met_iff fc_rank i).mp hi).1
    have h2 : ∀ i ∈ nonzeroIndices (zeroAtIndices obs (counts_not_met_inds fc_rank)),
        i < fc_rank.length := by
      intro i hi
      have := ((mem_nonzeroIndices_iff _ i).mp hi).1
      rwa [length_zeroAtIndices, hlen] at this
    rw [row_eq, if_pos h1, if_pos h2]
    split <;> rfl
  · intro fc_rank kmer_len rows r hr hnone
    exact mapM_eq_none_of_mem _ rows r hr hnone

/-- Witness for the amended C8: equal lengths succeed; a failing row
(empty counts vector against a below-threshold kmer) kills the pass. -/
theorem density_failure_only_on_out_of_range_witness :
    ((add_rank_weighted_density_row [3] 4 ((2 : ℚ) ^ (-8 : ℤ)) 15 [2] 20).isSome
        = true) ∧
      add_rank_weighted_densities [1 / 2] 4 [([], 20)] = none :=
  ⟨density_failure_only_on_out_of_range.1 [3] 4 ((2 : ℚ) ^ (-8 : ℤ)) 15 [2] 20 rfl,
   density_failure_only_on_out_of_range.2 [1 / 2] 4 [([], 20)] ([], 20)
     (List.mem_singleton.mpr rfl)
     (by norm_num [add_rank_weighted_density_row, counts_not_met_inds, nonzeroIndices,
        zeroAtIndices, maxOr, FC_FILTER, List.range_succ, List.filter])⟩

lemma sorted_sortDescQ (l : List ℚ) : (sortDescQ l).Sorted (fun a b => b ≤ a) := by
  haveI : IsTotal ℚ (fun a b => b ≤ a) := ⟨fun a b => le_total b a⟩
  haveI : IsTrans ℚ (fun a b => b ≤ a) := ⟨fun a b c hab hbc => le_trans hbc hab⟩
  exact List.sorted_insertionSort _ l

lemma perm_sortDescQ (l : List ℚ) : (sortDescQ l).Perm l :=
  List.perm_insertionSort _ l

lemma findIdx_sorted_desc (v : ℚ) (l : List ℚ) (hl : l.Sorted (fun a b => b ≤ a)) :
    l.findIdx (fun t => decide (t ≤ v)) = l.countP (fun t => decide (v < t)) := by
  induction l with
  | nil => rfl
  | cons a t ih =>
    have hta : ∀ x ∈ t, x ≤ a := (List.sorted_cons.mp hl).1
    have ht : t.Sorted (fun a b => b ≤ a) := (List.sorted_cons.mp hl).2
    by_cases hav : a ≤ v
    · have hc : t.countP (fun t => decide (v < t)) = 0 :=
        List.countP_eq_zero.mpr
          (fun x hx => by simp [not_lt.mpr (le_trans (hta x hx) hav)])
      rw [List.findIdx_cons, List.countP_cons, hc]
      simp [hav, not_lt.mpr hav]
    · rw [List.findIdx_cons, List.countP_cons, ih ht]
      simp [hav, lt_of_not_le hav]

/-- C6: pandas `rank(ascending=False, method="min")` assigns each record an
ordinal rank of 1 plus the number of records with strictly greater rank
score (so tied records share the minimum rank of their group), and on the
scores [10, 10, 8] and [5, 5, 3] the ordinal ranks are [1, 1, 3]. -/
theorem ordinal_rank_min_of_tied_group :
    (∀ (scores : List ℚ) (v : ℚ),
      ordinal_rank_of scores v = scores.countP (fun t => decide (v < t)) + 1) ∧
    ordinal_ranks [10, 10, 8] = [1, 1, 3] ∧
    ordinal_ranks [5, 5, 3] = [1, 1, 3] := by
  have hchar : ∀ (scores : List ℚ) (v : ℚ),
      ordinal_rank_of scores v = scores.countP (fun t => decide (v < t)) + 1 := by
    intro scores v
    unfold ordinal_rank_of
    rw [findIdx_sorted_desc v (sortDescQ scores) (sorted_sortDescQ scores),
      (perm_sortDescQ scores).countP_eq]
  refine ⟨hchar, ?_, ?_⟩
  · show [(10 : ℚ), 10, 8].map (fun v => ordinal_rank_of [(10 : ℚ), 10, 8] v) = [1, 1, 3]
    rw [List.map_cons, List.map_cons, List.map_cons, List.map_nil,
      hchar _ 10, hchar _ 8]
    norm_num [List.countP_cons]
  · show [(5 : ℚ), 5, 3].map (fun v => ordinal_rank_of [(5 : ℚ), 5, 3] v) = [1, 1, 3]
    rw [List.map_cons, List.map_cons, List.map_cons, List.map_nil,
      hchar _ 5, hchar _ 3]
    norm_num [List.countP_cons]

lemma sorted_sortAsc (l : List ℚ) : (sortAsc l).Sorted (fun a b => a ≤ b) := by
  haveI : IsTotal ℚ (fun a b : ℚ => a ≤ b) := ⟨le_total⟩
  haveI : IsTrans ℚ (fun a b : ℚ => a ≤ b) := ⟨fun a b c => le_trans⟩
  exact List.sorted_insertionSort _ l

lemma length_sortAsc (l : List ℚ) : (sortAsc l).length = l.length :=
  (List.perm_insertionSort _ l).length_eq

lemma getD_mono_of_sorted {s : List ℚ} (hs : s.Sorted (fun a b => a ≤ b))
    {i j : ℕ} (hij : i ≤ j) (hj : j < s.length) :
    s.getD i 0 ≤ s.getD j 0 := by
  have hi : i < s.length := Nat.lt_of_le_of_lt hij hj
  rw [List.getD_eq_getElem _ _ hi, List.getD_eq_getElem _ _ hj]
  rcases Nat.lt_or_ge i j with h | h
  · exact List.pairwise_iff_getElem.mp hs i j hi hj h
  · have hij2 : i = j := le_antisymm hij h
    subst hij2
    exact le_refl _

lemma floor_toNat_cast {t : ℚ} (ht : 0 ≤ t) : (((Int.floor t).toNat : ℤ)) = Int.floor t :=
  Int.toNat_of_nonneg (Int.le_floor.mpr (by exact_mod_cast ht))

lemma floor_toNat_cast_q {t : ℚ} (ht : 0 ≤ t) :
    (((Int.floor t).toNat : ℕ) : ℚ) = ((Int.floor t : ℤ) : ℚ) := by
  exact_mod_cast congrArg (fun z : ℤ => (z : ℚ)) (floor_toNat_cast ht)

lemma length_pos_of_between {s : List ℚ} {t : ℚ} (h0 : 0 ≤ t)
    (h1 : t ≤ (s.length : ℚ) - 1) : 1 ≤ s.length := by
  by_contra h
  have hz : s.length = 0 := by omega
  rw [hz] at h1
  norm_num at h1
  linarith

lemma interp_lower {s : List ℚ} (hs : s.Sorted (fun a b => a ≤ b))
    {t : ℚ} (h0 : 0 ≤ t) (h1 : t ≤ (s.length : ℚ) - 1) :
    s.getD (Int.floor t).toNat 0 ≤ interpAt s t := by
  have hfl : ((Int.floor t : ℤ) : ℚ) ≤ t := Int.floor_le t
  by_cases hlt : (Int.floor t).toNat + 1 < s.length
  · have hd : s.getD (Int.floor t).toNat 0 ≤ s.getD ((Int.floor t).toNat + 1) 0 :=
      getD_mono_of_sorted hs (Nat.le_succ _) hlt
    have hnn : 0 ≤ (t - ((Int.floor t : ℤ) : ℚ)) *
        (s.getD ((Int.floor t).toNat + 1) 0 - s.getD (Int.floor t).toNat 0) :=
      mul_nonneg (by linarith) (sub_nonneg.mpr hd)
    unfold interpAt
    linarith
  · have hlen : s.length ≤ (Int.floor t).toNat + 1 := Nat.le_of_not_lt hlt
    have h2 : ((s.length : ℕ) : ℚ) ≤ (((Int.floor t).toNat : ℕ) : ℚ) + 1 := by
      exact_mod_cast hlen
    have h3 := floor_toNat_cast_q h0
    have hc : t - ((Int.floor t : ℤ) : ℚ) = 0 := by linarith
    have hz : (t - ((Int.floor t : ℤ) : ℚ)) *
        (s.getD ((Int.floor t).toNat + 1) 0 - s.getD (Int.floor t).toNat 0) = 0 := by
      rw [hc]
      ring
    unfold interpAt
    linarith

lemma interp_upper {s : List ℚ} (hs : s.Sorted (fun a b => a ≤ b))
    {t : ℚ} (h0 : 0 ≤ t)
    (hlt : (Int.floor t).toNat + 1 < s.length) :
    interpAt s t ≤ s.getD ((Int.floor t).toNat + 1) 0 := by
  have hd : s.getD (Int.floor t).toNat 0 ≤ s.getD ((Int.floor t).toNat + 1) 0 :=
    getD_mono_of_sorted hs (Nat.le_succ _) hlt
  have hfrac1 : t - ((Int.floor t : ℤ) : ℚ) ≤ 1 := by
    have := Int.lt_floor_add_one t
    push_cast at this
    linarith
  have hmul : (t - ((Int.floor t : ℤ) : ℚ)) *
      (s.getD ((Int.floor t).toNat + 1) 0 - s.getD (Int.floor t).toNat 0) ≤
      1 * (s.getD ((Int.floor t).toNat + 1) 0 - s.getD (Int.floor t).toNat 0) :=
    mul_le_mul_of_nonneg_right hfrac1 (sub_nonneg.mpr hd)
  unfold interpAt
  linarith

lemma interpAt_mono {s : List ℚ} (hs : s.Sorted (fun a b => a ≤ b))
    {x y : ℚ} (hx0 : 0 ≤ x) (hxy : x ≤ y) (hy : y ≤ (s.length : ℚ) - 1) :
    interpAt s x ≤ interpAt s y := by
  have hy0 : 0 ≤ y := le_trans hx0 hxy
  have hx1 : x ≤ (s.length : ℚ) - 1 := le_trans hxy hy
  have hfl : Int.floor x ≤ Int.floor y := Int.floor_le_floor hxy
  have hfxy : (Int.floor x).toNat ≤ (Int.floor y).toNat := by
    have h1 := floor_toNat_cast hx0
    have h2 := floor_toNat_cast hy0
    omega
  have hlen1 : 1 ≤ s.length := length_pos_of_between hy0 hy
  have hfy_lt : (Int.floor y).toNat < s.length := by
    have h1 : ((Int.floor y : ℤ) : ℚ) ≤ (s.length : ℚ) - 1 := le_trans (Int.floor_le y) hy
    have h2 : Int.floor y ≤ (s.length : ℤ) - 1 := by exact_mod_cast h1
    have h3 := floor_toNat_cast hy0
    omega
  by_cases hcase : (Int.floor x).toNat = (Int.floor y).toNat
  · have hfl_eq : Int.floor x = Int.floor y := by
      have h1 := floor_toNat_cast hx0
      have h2 := floor_toNat_cast hy0
      omega
    by_cases hlt : (Int.floor x).toNat + 1 < s.length
    · have hd : 0 ≤ s.getD ((Int.floor x).toNat + 1) 0 - s.getD (Int.floor x).toNat 0 :=
        sub_nonneg.mpr (getD_mono_of_sorted hs (Nat.le_succ _) hlt)
      unfold interpAt
      rw [← hfl_eq]
      exact add_le_add_left (mul_le_mul_of_nonneg_right (by linarith) hd) _
    · have hlen : s.length ≤ (Int.floor x).toNat + 1 := Nat.le_of_not_lt hlt
      have h2 : ((s.length : ℕ) : ℚ) ≤ (((Int.floor x).toNat : ℕ) : ℚ) + 1 := by
        exact_mod_cast hlen
      have h3 := floor_toNat_cast_q hx0
      have h4 : ((Int.floor x : ℤ) : ℚ) ≤ x := Int.floor_le x
      have hxy_eq : x = y := by linarith
      rw [hxy_eq]
  · have hfxlt : (Int.floor x).toNat < (Int.floor y).toNat := lt_of_le_of_ne hfxy hcase
    have hfx1_lt : (Int.floor x).toNat + 1 < s.length := lt_of_le_of_lt hfxlt hfy_lt
    calc interpAt s x ≤ s.getD ((Int.floor x).toNat + 1) 0 := interp_upper hs hx0 hfx1_lt
      _ ≤ s.getD (Int.floor y).toNat 0 := getD_mono_of_sorted hs hfxlt hfy_lt
      _ ≤ interpAt s y := interp_lower hs hy0 hy

lemma get_fc_cutoff_mono (scores : List ℚ) {p1 p2 : ℚ} (hne : scores ≠ [])
    (h0 : 0 ≤ p1) (h12 : p1 ≤ p2) (h100 : p2 ≤ 100) :
    get_fc_cutoff scores p1 ≤ get_fc_cutoff scores p2 := by
  have hn1 : 1 ≤ scores.length := List.length_pos.mpr hne
  have hn1q : (1 : ℚ) ≤ (scores.length : ℚ) := by exact_mod_cast hn1
  unfold get_fc_cutoff
  apply interpAt_mono (sorted_sortAsc scores)
  · exact mul_nonneg (div_nonneg h0 (by norm_num)) (by linarith)
  · exact mul_le_mul_of_nonneg_right
      ((div_le_div_right (by norm_num : (0 : ℚ) < 100)).mpr h12) (by linarith)
  · rw [length_sortAsc]
    have hp2 : p2 / 100 ≤ 1 := by linarith [div_le_one_of_le h100 (by norm_num : (0:ℚ) ≤ 100)]
    calc p2 / 100 * ((scores.length : ℚ) - 1) ≤ 1 * ((scores.length : ℚ) - 1) :=
        mul_le_mul_of_nonneg_right hp2 (by linarith)
      _ = (scores.length : ℚ) - 1 := one_mul _

/-- C5: raising the percentile cutoff never grows the enriched-kmer
selection: for percentiles `p1 <= p2` in `[0, 100]`, every record selected
at `p2` is selected at `p1`, and the selection at `p2` is no larger. -/
theorem enriched_selection_antitone (scores : List ℚ) (p1 p2 : ℚ)
    (hne : scores ≠ []) (h0 : 0 ≤ p1) (h12 : p1 ≤ p2) (h100 : p2 ≤ 100) :
    (∀ x ∈ get_enriched_kmers scores p2, x ∈ get_enriched_kmers scores p1) ∧
    (get_enriched_kmers scores p2).length ≤ (get_enriched_kmers scores p1).length := by
  have hcut : get_fc_cutoff scores p1 ≤ get_fc_cutoff scores p2 :=
    get_fc_cutoff_mono scores hne h0 h12 h100
  constructor
  · intro x hx
    rw [get_enriched_kmers, List.mem_filter] at hx ⊢
    exact ⟨hx.1, decide_eq_true (le_trans hcut (of_decide_eq_true hx.2))⟩
  · rw [get_enriched_kmers, get_enriched_kmers, ← List.countP_eq_length_filter,
      ← List.countP_eq_length_filter]
    apply List.countP_mono_left
    intro x _ hx
    exact decide_eq_true (le_trans hcut (of_decide_eq_true hx))

/-- Witness for C5: scores `[10, 4, 1]`, percentiles 50 and 98. -/
theorem enriched_selection_antitone_witness :
    (get_enriched_kmers [10, 4, 1] 98).length ≤ (get_enriched_kmers [10, 4, 1] 50).length :=
  (enriched_selection_antitone [10, 4, 1] 50 98 (List.cons_ne_nil _ _) (by norm_num)
    (by norm_num) (by norm_num)).2

end BindnSeq
